import Mathlib

/-!
Verification of the `hode` example program (`example/example.py`): a
genetic-algorithm optimization of a NaN-masked Rosenbrock function.
Real-vector arithmetic is embedded over `ℚ` (exact arithmetic); the
Euclidean norm used by the obstacle test is `Real.sqrt` of the exact sum
of squares, with a decidable squared-distance test proved equivalent.
-/

namespace Hode

/-- Sum of squared component differences of two vectors, i.e. the square of
`np.linalg.norm(x - p)` for equal-length vectors. -/
def sqDiff (x p : List ℚ) : ℚ :=
  ((x.zip p).map (fun q => (q.1 - q.2) ^ 2)).sum

/-- The Euclidean norm `np.linalg.norm(x - p)` of the difference of two
vectors. -/
noncomputable def normDist (x p : List ℚ) : ℝ :=
  Real.sqrt ((sqDiff x p : ℚ) : ℝ)

/-- Decidable form of the obstacle test `np.linalg.norm(x - p) <= r`,
comparing squared distances (proved equivalent in `withinRangeB_iff`). -/
def withinRangeB (x p : List ℚ) (r : ℚ) : Bool :=
  decide (0 ≤ r) && decide (sqDiff x p ≤ r ^ 2)

/-- `scipy.optimize.rosen`: the Rosenbrock function
`sum(100*(x[1:] - x[:-1]**2)**2 + (1 - x[:-1])**2)`. -/
def rosen : List ℚ → ℚ
  | x0 :: x1 :: rest => 100 * (x1 - x0 ^ 2) ^ 2 + (1 - x0) ^ 2 + rosen (x1 :: rest)
  | _ => 0

/-- The sentinel value `1e27` returned for masked (infeasible) points. -/
def sentinel : ℚ := 10 ^ 27

namespace Rosen

/-- `Rosen.compute` from `example/example.py`: if an obstacle point of
`nan_points` lies within Euclidean distance `nan_range` of the input `x`,
the output is the sentinel `1e27`; otherwise it is `rosen(x)`.
(The `time.sleep` call has no effect on the value and is omitted.) -/
def compute (nan_points : Option (List (List ℚ))) (nan_range : ℚ) (x : List ℚ) : ℚ :=
  match nan_points with
  | none => rosen x
  | some pts =>
    if pts.any (fun p => withinRangeB x p nan_range) then sentinel else rosen x

end Rosen

theorem sqDiff_nonneg (x p : List ℚ) : 0 ≤ sqDiff x p := by
  unfold sqDiff
  apply List.sum_nonneg
  intro a ha
  simp only [List.mem_map] at ha
  obtain ⟨q, _, rfl⟩ := ha
  positivity

theorem withinRangeB_true_iff (x p : List ℚ) (r : ℚ) :
    withinRangeB x p r = true ↔ (0 ≤ r ∧ sqDiff x p ≤ r ^ 2) := by
  simp [withinRangeB]

theorem withinRangeB_iff (x p : List ℚ) (r : ℚ) :
    withinRangeB x p r = true ↔ normDist x p ≤ (r : ℝ) := by
  rw [normDist, Real.sqrt_le_iff, withinRangeB]
  simp only [Bool.and_eq_true, decide_eq_true_eq]
  constructor
  · rintro ⟨h1, h2⟩
    exact ⟨by exact_mod_cast h1, by exact_mod_cast h2⟩
  · rintro ⟨h1, h2⟩
    exact ⟨by exact_mod_cast h1, by exact_mod_cast h2⟩

/-- C1: with obstacle points configured, an input within `nan_range`
(Euclidean norm) of some obstacle point evaluates to the sentinel `1e27`,
not to the Rosenbrock function; with no obstacle within range, or with
`nan_points = None`, the output is exactly `rosen(x)`. -/
theorem C1_nan_masking (pts : List (List ℚ)) (r : ℚ) (x : List ℚ) :
    ((∃ p ∈ pts, normDist x p ≤ (r : ℝ)) → Rosen.compute (some pts) r x = sentinel) ∧
    ((∀ p ∈ pts, ¬ normDist x p ≤ (r : ℝ)) → Rosen.compute (some pts) r x = rosen x) ∧
    Rosen.compute none r x = rosen x := by
  refine ⟨?_, ?_, rfl⟩
  · rintro ⟨p, hp, hle⟩
    have hany : pts.any (fun q => withinRangeB x q r) = true :=
      List.any_eq_true.mpr ⟨p, hp, (withinRangeB_iff x p r).mpr hle⟩
    simp [Rosen.compute, hany]
  · intro hall
    have hany : pts.any (fun q => withinRangeB x q r) = false := by
      rw [Bool.eq_false_iff]
      intro hcontra
      obtain ⟨p, hp, hw⟩ := List.any_eq_true.mp hcontra
      exact hall p hp ((withinRangeB_iff x p r).mp hw)
    simp [Rosen.compute, hany]

theorem C1_nan_masking_witness :
    Rosen.compute (some [[0]]) (1 / 100) [0] = sentinel ∧
    Rosen.compute (some [[5]]) (1 / 100) [0] = rosen [0] := by
  constructor
  · exact (C1_nan_masking [[0]] (1 / 100) [0]).1
      ⟨[0], by simp, (withinRangeB_iff [0] [0] (1 / 100)).mp (by norm_num [withinRangeB, sqDiff])⟩
  · refine (C1_nan_masking [[5]] (1 / 100) [0]).2.1 ?_
    intro p hp
    simp only [List.mem_singleton] at hp
    subst hp
    rw [← withinRangeB_iff]
    norm_num [withinRangeB, sqDiff]

/-- C9: the objective evaluation always produces a finite rational value:
either the sentinel `1e27` or the Rosenbrock value `rosen(x)`; it never
produces NaN or infinity. -/
theorem C9_always_finite (nps : Option (List (List ℚ))) (r : ℚ) (x : List ℚ) :
    Rosen.compute nps r x = sentinel ∨ Rosen.compute nps r x = rosen x := by
  cases nps with
  | none => exact Or.inr rfl
  | some pts =>
    by_cases h : pts.any (fun p => withinRangeB x p r) = true
    · exact Or.inl (by simp [Rosen.compute, h])
    · exact Or.inr (by simp [Rosen.compute, h])

/-! ### Obstacle setup (rejection sampling) in `solve` -/

/-- One raw obstacle sample `-2. + np.random.rand(dim) * 4.`, applied to a
vector `u` of uniform draws in `[0, 1)`. -/
def sampleObstacle (u : List ℚ) : List ℚ := u.map (fun v => -2 + v * 4)

/-- `np.ones(dim)`: the known optimum `(1, ..., 1)` of the Rosenbrock
function. -/
def ones (dim : ℕ) : List ℚ := List.replicate dim 1

/-- The obstacle-setup loop of `solve`:
`while len(nan_points) < n_nan_points * dim:` draw a sample and keep it iff
`np.linalg.norm(nan_point - np.ones(dim)) > nan_range`. The random stream
is made explicit as a finite list `us` of uniform draws; the loop
terminates when the accumulated list reaches `target`. -/
def nanPointsLoop (target dim : ℕ) (r : ℚ) :
    List (List ℚ) → List (List ℚ) → List (List ℚ)
  | acc, [] => acc
  | acc, u :: us =>
    if target ≤ acc.length then acc
    else if withinRangeB (sampleObstacle u) (ones dim) r then
      nanPointsLoop target dim r acc us
    else
      nanPointsLoop target dim r (acc ++ [sampleObstacle u]) us

theorem nanPointsLoop_length_le (target dim : ℕ) (r : ℚ)
    (us : List (List ℚ)) :
    ∀ acc : List (List ℚ), acc.length ≤ target →
      (nanPointsLoop target dim r acc us).length ≤ target := by
  induction us with
  | nil => intro acc hacc; simpa [nanPointsLoop] using hacc
  | cons u us ih =>
    intro acc hacc
    simp only [nanPointsLoop]
    by_cases h1 : target ≤ acc.length
    · rw [if_pos h1]; exact hacc
    · rw [if_neg h1]
      by_cases h2 : withinRangeB (sampleObstacle u) (ones dim) r = true
      · rw [if_pos h2]; exact ih acc hacc
      · rw [if_neg h2]
        apply ih
        have hlt : acc.length < target := Nat.lt_of_not_le h1
        simpa using hlt

theorem nanPointsLoop_mem (target dim : ℕ) (r : ℚ) (us : List (List ℚ)) :
    ∀ acc : List (List ℚ), ∀ q ∈ nanPointsLoop target dim r acc us,
      q ∈ acc ∨ ∃ u ∈ us, q = sampleObstacle u ∧
        withinRangeB (sampleObstacle u) (ones dim) r = false := by
  induction us with
  | nil => intro acc q hq; left; simpa [nanPointsLoop] using hq
  | cons u us ih =>
    intro acc q hq
    simp only [nanPointsLoop] at hq
    by_cases h1 : target ≤ acc.length
    · rw [if_pos h1] at hq; exact Or.inl hq
    · rw [if_neg h1] at hq
      by_cases h2 : withinRangeB (sampleObstacle u) (ones dim) r = true
      · rw [if_pos h2] at hq
        rcases ih acc q hq with h | ⟨u', hu', he, hb⟩
        · exact Or.inl h
        · exact Or.inr ⟨u', List.mem_cons_of_mem _ hu', he, hb⟩
      · rw [if_neg h2] at hq
        rcases ih _ q hq with h | ⟨u', hu', he, hb⟩
        · rcases List.mem_append.mp h with h' | h'
          · exact Or.inl h'
          · have hqe : q = sampleObstacle u := by simpa using h'
            refine Or.inr ⟨u, List.mem_cons_self u us, hqe, ?_⟩
            rwa [Bool.not_eq_true] at h2
        · exact Or.inr ⟨u', List.mem_cons_of_mem _ hu', he, hb⟩

/-- C2: when the rejection-sampling loop terminates, it yields exactly
`n_nan_points * dim` obstacle points; every point has each component in
`[-2, 2)` and lies at Euclidean distance strictly greater than `nan_range`
from the optimum `(1, ..., 1)`; samples within `nan_range` of the optimum
never appear. -/
theorem C2_obstacle_setup (n_nan_points dim : ℕ) (r : ℚ) (us : List (List ℚ))
    (hus : ∀ u ∈ us, u.length = dim ∧ ∀ v ∈ u, 0 ≤ v ∧ v < 1)
    (hterm : n_nan_points * dim ≤
      (nanPointsLoop (n_nan_points * dim) dim r [] us).length) :
    (nanPointsLoop (n_nan_points * dim) dim r [] us).length =
      n_nan_points * dim ∧
    ∀ p ∈ nanPointsLoop (n_nan_points * dim) dim r [] us,
      p.length = dim ∧ (∀ c ∈ p, -2 ≤ c ∧ c < 2) ∧
      (r : ℝ) < normDist p (ones dim) := by
  constructor
  · exact Nat.le_antisymm
      (nanPointsLoop_length_le (n_nan_points * dim) dim r us [] (Nat.zero_le _))
      hterm
  · intro p hp
    rcases nanPointsLoop_mem (n_nan_points * dim) dim r us [] p hp with
      h | ⟨u, hu, rfl, hb⟩
    · exact absurd h (List.not_mem_nil p)
    · obtain ⟨hlen, hcomp⟩ := hus u hu
      refine ⟨by simpa [sampleObstacle] using hlen, ?_, ?_⟩
      · intro c hc
        simp only [sampleObstacle, List.mem_map] at hc
        obtain ⟨v, hv, rfl⟩ := hc
        obtain ⟨hv0, hv1⟩ := hcomp v hv
        constructor <;> nlinarith
      · rw [← not_le, ← withinRangeB_iff, hb]
        simp

theorem C2_obstacle_setup_witness :
    (nanPointsLoop (2 * 1) 1 1 [] [[0], [0]]).length = 2 * 1 ∧
    ∀ p ∈ nanPointsLoop (2 * 1) 1 1 [] [[0], [0]],
      p.length = 1 ∧ (∀ c ∈ p, -2 ≤ c ∧ c < 2) ∧
      ((1 : ℚ) : ℝ) < normDist p (ones 1) := by
  have hw : withinRangeB (sampleObstacle [0]) (ones 1) 1 = false := by
    rw [Bool.eq_false_iff, Ne, withinRangeB_true_iff]
    norm_num [sqDiff, sampleObstacle, ones]
  have heval : nanPointsLoop (2 * 1) 1 1 [] [[0], [0]] =
      [sampleObstacle [0], sampleObstacle [0]] := by
    simp [nanPointsLoop, hw]
  apply C2_obstacle_setup 2 1 1 [[0], [0]]
  · intro u hu
    rcases List.mem_cons.mp hu with rfl | hu'
    · refine ⟨by simp, ?_⟩
      intro v hv
      rcases List.mem_singleton.mp hv with rfl
      norm_num
    · rcases List.mem_singleton.mp hu' with rfl
      refine ⟨by simp, ?_⟩
      intro v hv
      rcases List.mem_singleton.mp hv with rfl
      norm_num
  · rw [heval]
    simp

/-! ### The result tuple of `solve` -/

/-- An element of the result tuple built by `solve`: the solution vector,
a scalar (objective value or wall-clock duration), Python `None`, or one of
the matplotlib objects `fig`, `ax`, `cs`. -/
inductive ResItem where
  | vec (x : List ℚ)
  | scalar (q : ℚ)
  | none_
  | figObj
  | axObj
  | csObj
  deriving DecidableEq

/-- The result assembly of `solve`:
`res = [np.copy(prob['x']), np.copy(prob['f'])[0], dt, None, None, None]`,
then `res[3:] = [fig, ax, cs]` when `plot and dim == 2 and rank == 0`,
and `solve` returns `tuple(res)`. -/
def solveRes (x : List ℚ) (f dt : ℚ) (plot : Bool) (dim rank : ℕ) :
    List ResItem :=
  if plot ∧ dim = 2 ∧ rank = 0 then
    [.vec x, .scalar f, .scalar dt, .figObj, .axObj, .csObj]
  else
    [.vec x, .scalar f, .scalar dt, .none_, .none_, .none_]

/-- C3 counterexample: `solve` does not return a bare 3-tuple; its result
has six components, not three. -/
theorem C3_three_tuple_counterexample :
    ¬ (solveRes [0] 0 0 false 2 0).length = 3 := by
  simp [solveRes]

/-- C3 (amended): `solve` returns a 6-tuple whose first three components
are the solution vector, the objective value at it and the elapsed
wall-clock seconds; the remaining three are `None` placeholders, filled
with the figure objects only when `plot and dim == 2 and rank == 0`. -/
theorem C3_solve_result (x : List ℚ) (f dt : ℚ) (plot : Bool) (dim rank : ℕ) :
    (solveRes x f dt plot dim rank).length = 6 ∧
    (solveRes x f dt plot dim rank).take 3 =
      [.vec x, .scalar f, .scalar dt] ∧
    (¬(plot = true ∧ dim = 2 ∧ rank = 0) →
      (solveRes x f dt plot dim rank).drop 3 = [.none_, .none_, .none_]) ∧
    ((plot = true ∧ dim = 2 ∧ rank = 0) →
      (solveRes x f dt plot dim rank).drop 3 = [.figObj, .axObj, .csObj]) := by
  by_cases h : plot = true ∧ dim = 2 ∧ rank = 0
  · rw [solveRes, if_pos h]
    exact ⟨rfl, rfl, fun hc => absurd h hc, fun _ => rfl⟩
  · rw [solveRes, if_neg h]
    exact ⟨rfl, rfl, fun _ => rfl, fun hc => absurd hc h⟩

theorem C3_solve_result_witness :
    (solveRes [0] 0 0 false 2 0).length = 6 ∧
    (solveRes [0] 0 0 false 2 0).take 3 = [.vec [0], .scalar 0, .scalar 0] ∧
    (solveRes [0] 0 0 false 2 0).drop 3 = [.none_, .none_, .none_] := by
  obtain ⟨h1, h2, h3, _⟩ := C3_solve_result [0] 0 0 false 2 0
  exact ⟨h1, h2, h3 (by simp)⟩

/-! ### CLI entry point `main` -/

/-- Argument handling in `main`: `sys.argv` is the program name followed by
the positional arguments, so `len(sys.argv) != 3` means the positional
argument count differs from two; then the defaults `dim, bits = 2, 31`
apply, otherwise the two arguments are taken as `dim, bits`. The
positional arguments are modelled as the integers they parse to. -/
def parseArgs (args : List ℤ) : ℤ × ℤ :=
  if args.length ≠ 2 then (2, 31) else (args.getD 0 0, args.getD 1 0)

/-- `plot = True if os.environ.get('PLOT_CONTOUR') else False`: the lookup
yields `none` when the variable is unset, and a string is truthy iff it is
non-empty. -/
def plotFlag (env : Option String) : Bool :=
  match env with
  | none => false
  | some s => decide (s ≠ "")

/-- The guard `plot and dim == 2 and rank == 0` in `solve`, deciding
whether the contour plot is produced. -/
def plotActive (plot : Bool) (dim rank : ℕ) : Bool :=
  plot && dim == 2 && rank == 0

/-- C8 counterexample: with `PLOT_CONTOUR` set to the empty string the
variable is set, yet plotting stays disabled, refuting the claimed
"enabled iff the variable is set". -/
theorem C8_env_counterexample :
    (Option.some ("")).isSome = true ∧ plotFlag (some ("")) = false := by
  constructor <;> rfl

/-- C8 (amended): exactly two positional arguments are taken as `dim` and
`bits`; any other count falls back to `dim = 2`, `bits = 31`; contour
plotting is enabled iff `PLOT_CONTOUR` is set to a non-empty string; and
the plot is produced only when `dim == 2`. -/
theorem C8_cli (args : List ℤ) (env : Option String) (p : Bool) (d r : ℕ) :
    (args.length = 2 → parseArgs args = (args.getD 0 0, args.getD 1 0)) ∧
    (args.length ≠ 2 → parseArgs args = (2, 31)) ∧
    (plotFlag env = true ↔ ∃ s, env = some s ∧ s ≠ "") ∧
    (plotActive p d r = true → d = 2) := by
  refine ⟨?_, ?_, ?_, ?_⟩
  · intro h
    simp [parseArgs, h]
  · intro h
    simp [parseArgs, h]
  · cases env with
    | none => simp [plotFlag]
    | some s =>
      simp only [plotFlag, decide_eq_true_eq]
      constructor
      · intro h
        exact ⟨s, rfl, h⟩
      · rintro ⟨t, ht, hne⟩
        cases ht
        exact hne
  · intro h
    simp only [plotActive, Bool.and_eq_true, beq_iff_eq] at h
    exact h.1.2

theorem C8_cli_witness :
    parseArgs [3, 15] = (3, 15) ∧ parseArgs [3] = (2, 31) ∧
    plotFlag (some ("1")) = true ∧ (2 : ℕ) = 2 := by
  refine ⟨?_, ?_, ?_, ?_⟩
  · have h := (C8_cli [3, 15] (some ("1")) true 2 0).1 (by decide)
    simpa using h
  · exact (C8_cli [3] (some ("1")) true 2 0).2.1 (by decide)
  · exact (C8_cli [3] (some ("1")) true 2 0).2.2.1.mpr ⟨"1", rfl, by decide⟩
  · exact (C8_cli [3] (some ("1")) true 2 0).2.2.2 (by decide)

/-- C10: with an argument count other than exactly two positional
arguments, `main` silently falls back to the defaults `dim = 2`,
`bits = 31`; the supplied arguments are ignored. -/
theorem C10_default_fallback (args : List ℤ) (h : args.length ≠ 2) :
    parseArgs args = (2, 31) := by
  simp [parseArgs, h]

theorem C10_default_fallback_witness :
    parseArgs [5] = (2, 31) ∧ parseArgs [7, 8, 9] = (2, 31) :=
  ⟨C10_default_fallback [5] (by decide),
   C10_default_fallback [7, 8, 9] (by decide)⟩

/-! ### Encoder (spec-modelled: the GA engine's encoder/decoder is not in
the repository source, only the example that invokes the GA driver) -/

/-- Modelled from the spec: the decoder of the GA engine (missing from the
source tree). The unsigned integer `u` in `[0, 2^bits − 1]` of a
dimension's bit-segment maps to `lower + u * (upper − lower) / (2^bits − 1)`. -/
def decodeInt (lower upper : ℚ) (bits : ℕ) (u : ℕ) : ℚ :=
  lower + u * (upper - lower) / (2 ^ bits - 1)

/-- Modelled from the spec: the encoder of the GA engine (missing from the
source tree). An arbitrary real value rounds to the nearest representable
grid point, with ties rounding toward the lower integer
(round-half-down, `⌈v − 1/2⌉`). -/
def encode (lower upper : ℚ) (bits : ℕ) (x : ℚ) : ℤ :=
  ⌈(x - lower) * (2 ^ bits - 1) / (upper - lower) - 1 / 2⌉

/-- C5: for every bit-width in `[1, 31]`, bounds with `lower < upper`, and
integer `u` in `[0, 2^bits − 1]`, decoding `u` and re-encoding the result
yields exactly `u`: the round-trip on the representable grid is exact. -/
theorem C5_encode_decode_roundtrip (lower upper : ℚ) (bits u : ℕ)
    (hb1 : 1 ≤ bits) (hb31 : bits ≤ 31) (hlu : lower < upper)
    (hu : u ≤ 2 ^ bits - 1) :
    encode lower upper bits (decodeInt lower upper bits u) = (u : ℤ) := by
  have hpow : (2 : ℚ) ≤ 2 ^ bits := by
    calc (2 : ℚ) = 2 ^ 1 := (pow_one 2).symm
    _ ≤ 2 ^ bits := by
        apply pow_le_pow_right₀ (by norm_num) hb1
  have hden : (2 : ℚ) ^ bits - 1 ≠ 0 := by
    intro hc
    rw [sub_eq_zero] at hc
    rw [hc] at hpow
    norm_num at hpow
  have hul : upper - lower ≠ 0 := sub_ne_zero.mpr (ne_of_gt hlu)
  have key : (decodeInt lower upper bits u - lower) * (2 ^ bits - 1) /
      (upper - lower) = (u : ℚ) := by
    unfold decodeInt
    field_simp
    ring
  unfold encode
  rw [key, Int.ceil_eq_iff]
  constructor
  · push_cast
    linarith
  · push_cast
    linarith

theorem C5_encode_decode_roundtrip_witness :
    encode 0 1 3 (decodeInt 0 1 3 5) = (5 : ℤ) := by
  exact_mod_cast C5_encode_decode_roundtrip 0 1 3 5
    (by norm_num) (by norm_num) (by norm_num) (by norm_num)

/-! ### Elitism (spec-modelled: the GA engine's population operations are
not in the repository source) -/

/-- Fitness of the best (minimum-fitness, since this is minimization)
individual of a population, represented by its list of fitness values. -/
def bestFitness : List ℚ → ℚ
  | [] => 0
  | x :: xs => xs.foldl min x

/-- Modelled from the spec: `carry_elite(old_population, new_population,
elite_count)` of the GA engine (missing from the source tree): the
`elite_count` best-fitness individuals of the previous generation replace
the worst `elite_count` individuals of the new generation. -/
def carry_elite (old next : List ℚ) (k : ℕ) : List ℚ :=
  (old.mergeSort).take k ++ (next.mergeSort).take (next.length - k)

/-- The sequence of populations of an elitist run: generation `g + 1` is
the offspring population produced by selection/crossover/mutation with the
elite of generation `g` carried over. -/
def gaPops (pop0 : List ℚ) (offspring : ℕ → List ℚ) (k : ℕ) : ℕ → List ℚ
  | 0 => pop0
  | g + 1 => carry_elite (gaPops pop0 offspring k g) (offspring g) k

theorem foldl_min_le_init (a : ℚ) (xs : List ℚ) : xs.foldl min a ≤ a := by
  induction xs generalizing a with
  | nil => exact le_refl a
  | cons x xs ih =>
    calc (x :: xs).foldl min a = xs.foldl min (min a x) := rfl
    _ ≤ min a x := ih (min a x)
    _ ≤ a := min_le_left a x

theorem bestFitness_cons_le (h : ℚ) (l : List ℚ) : bestFitness (h :: l) ≤ h :=
  foldl_min_le_init h l

theorem foldl_min_mem (xs : List ℚ) : ∀ a : ℚ, xs.foldl min a ∈ a :: xs := by
  induction xs with
  | nil => intro a; exact List.mem_singleton.mpr rfl
  | cons y ys ih =>
    intro a
    have hstep : (y :: ys).foldl min a = ys.foldl min (min a y) := rfl
    rw [hstep]
    rcases List.mem_cons.mp (ih (min a y)) with h | h
    · rcases min_cases a y with ⟨hmin, _⟩ | ⟨hmin, _⟩
      · rw [h, hmin]
        exact List.mem_cons_self _ _
      · rw [h, hmin]
        exact List.mem_cons_of_mem _ (List.mem_cons_self _ _)
    · exact List.mem_cons_of_mem _ (List.mem_cons_of_mem _ h)

theorem bestFitness_mem (l : List ℚ) (hne : l ≠ []) : bestFitness l ∈ l := by
  match l with
  | x :: xs => exact foldl_min_mem xs x

theorem carry_elite_best_le (old next : List ℚ) (k : ℕ)
    (hk : 1 ≤ k) (hold : old ≠ []) :
    bestFitness (carry_elite old next k) ≤ bestFitness old := by
  have hperm : old.mergeSort.Perm old := List.mergeSort_perm old _
  have hsne : old.mergeSort ≠ [] := by
    intro hc
    apply hold
    have := hperm.length_eq
    rw [hc] at this
    exact List.length_eq_zero.mp this.symm
  obtain ⟨h, t, hht⟩ := List.exists_cons_of_ne_nil hsne
  obtain ⟨k', rfl⟩ := Nat.exists_eq_add_of_le hk
  have hsorted : List.Sorted (· ≤ ·) old.mergeSort := List.sorted_mergeSort' old
  have hmin : ∀ a ∈ old, h ≤ a := by
    intro a ha
    have ha' : a ∈ old.mergeSort := hperm.mem_iff.mpr ha
    rw [hht] at ha'
    rcases List.mem_cons.mp ha' with rfl | ha''
    · exact le_refl a
    · rw [hht] at hsorted
      exact (List.sorted_cons.mp hsorted).1 a ha''
  have hbest : h ≤ bestFitness old :=
    hmin (bestFitness old) (bestFitness_mem old hold)
  have htake : (old.mergeSort).take (1 + k') = h :: t.take k' := by
    rw [hht, Nat.add_comm, List.take_succ_cons]
  calc bestFitness (carry_elite old next (1 + k'))
      = bestFitness (h :: (t.take k' ++ (next.mergeSort).take (next.length - (1 + k')))) := by
        rw [carry_elite, htake, List.cons_append]
    _ ≤ h := bestFitness_cons_le _ _
    _ ≤ bestFitness old := hbest

theorem gaPops_ne_nil (pop0 : List ℚ) (offspring : ℕ → List ℚ) (k : ℕ)
    (hk : 1 ≤ k) (h0 : pop0 ≠ []) : ∀ g, gaPops pop0 offspring k g ≠ [] := by
  intro g
  induction g with
  | zero => exact h0
  | succ g ih =>
    show carry_elite (gaPops pop0 offspring k g) (offspring g) k ≠ []
    have hperm : (gaPops pop0 offspring k g).mergeSort.Perm
        (gaPops pop0 offspring k g) := List.mergeSort_perm _ _
    have hsne : (gaPops pop0 offspring k g).mergeSort ≠ [] := by
      intro hc
      apply ih
      have := hperm.length_eq
      rw [hc] at this
      exact List.length_eq_zero.mp this.symm
    obtain ⟨h, t, hht⟩ := List.exists_cons_of_ne_nil hsne
    obtain ⟨k', rfl⟩ := Nat.exists_eq_add_of_le hk
    rw [carry_elite, hht, Nat.add_comm, List.take_succ_cons]
    simp

/-- C4: with elitism enabled (`elite_count ≥ 1`), the generation-best
fitness is monotonically non-increasing: for every generation `g`,
`best_fitness[g+1] ≤ best_fitness[g]`, because `carry_elite` carries the
best individuals of the previous generation into the next. -/
theorem C4_elitism_monotone (pop0 : List ℚ) (offspring : ℕ → List ℚ)
    (k : ℕ) (hk : 1 ≤ k) (h0 : pop0 ≠ []) (g : ℕ) :
    bestFitness (gaPops pop0 offspring k (g + 1)) ≤
      bestFitness (gaPops pop0 offspring k g) :=
  carry_elite_best_le _ _ k hk (gaPops_ne_nil pop0 offspring k hk h0 g)

theorem C4_elitism_monotone_witness :
    bestFitness (gaPops [3] (fun _ => [5]) 1 1) ≤
      bestFitness (gaPops [3] (fun _ => [5]) 1 0) :=
  C4_elitism_monotone [3] (fun _ => [5]) 1 (by norm_num) (by simp) 0

/-! ### Evaluator pool (spec-modelled: the GA engine's parallel evaluation
is not in the repository source; the example only toggles `run_parallel`) -/

/-- Modelled from the spec: strictly sequential batch evaluation, the
`worker_count == 1` baseline of the evaluator pool (missing from the
source tree). -/
def evaluate_batch_seq (f : List ℚ → ℚ) (vs : List (List ℚ)) : List ℚ :=
  vs.map f

/-- Consecutive chunks of size `w`: the waves of at most `w` concurrent
evaluations dispatched by the pool (a final shorter wave is allowed). -/
def chunk {α : Type} (w : ℕ) : List α → List (List α)
  | [] => []
  | x :: xs => (x :: xs.take (w - 1)) :: chunk w (xs.drop (w - 1))
termination_by l => l.length
decreasing_by
  simp only [List.length_drop, List.length_cons]
  exact Nat.lt_succ_of_le (Nat.sub_le _ _)

theorem chunk_flatten {α : Type} (w : ℕ) (l : List α) :
    (chunk w l).flatten = l := by
  suffices h : ∀ n (l : List α), l.length = n → (chunk w l).flatten = l from
    h l.length l rfl
  intro n
  induction n using Nat.strong_induction_on with
  | _ n ih =>
    intro l hl
    cases l with
    | nil => simp [chunk]
    | cons x xs =>
      rw [chunk, List.flatten_cons]
      have hdl : (xs.drop (w - 1)).length < n := by
        rw [List.length_drop]
        rw [List.length_cons] at hl
        omega
      rw [ih _ hdl (xs.drop (w - 1)) rfl, List.cons_append,
        List.take_append_drop]

/-- Modelled from the spec: parallel batch evaluation with up to `w`
concurrent workers (missing from the source tree): candidates are
dispatched in waves of at most `w`, each wave's results keep their input
positions, and the waves are concatenated in order, so output ordering
matches input ordering regardless of completion order. -/
def evaluate_batch_par (f : List ℚ → ℚ) (w : ℕ) (vs : List (List ℚ)) :
    List ℚ :=
  ((chunk w vs).map (fun c => c.map f)).flatten

theorem evaluate_batch_par_eq (f : List ℚ → ℚ) (w : ℕ)
    (vs : List (List ℚ)) :
    evaluate_batch_par f w vs = evaluate_batch_seq f vs := by
  unfold evaluate_batch_par evaluate_batch_seq
  rw [← List.map_flatten, chunk_flatten]

/-- A generic generational loop over an evaluator `E`: the next population
is any function of the current population and its scores (selection,
crossover, mutation and elitism are all such functions, given that the
random stream is deterministic for a fixed seed). -/
def runPops (E : (List ℚ → ℚ) → List (List ℚ) → List ℚ)
    (f : List ℚ → ℚ) (next : List (List ℚ) → List ℚ → List (List ℚ))
    (pop0 : List (List ℚ)) : ℕ → List (List ℚ)
  | 0 => pop0
  | g + 1 => next (runPops E f next pop0 g) (E f (runPops E f next pop0 g))

/-- The generation-best fitness sequence of a run. -/
def genBest (E : (List ℚ → ℚ) → List (List ℚ) → List ℚ)
    (f : List ℚ → ℚ) (next : List (List ℚ) → List ℚ → List (List ℚ))
    (pop0 : List (List ℚ)) (g : ℕ) : ℚ :=
  bestFitness (E f (runPops E f next pop0 g))

/-- C6: with a fixed seed (the offspring function `next` is deterministic),
a run evaluated with `worker_count = 1` and a run evaluated with
`worker_count = 4` produce the same population evolution and the same
sequence of generation-best fitness values: the parallel pool changes
performance only, never the result. -/
theorem C6_parallel_determinism (obj : List ℚ → ℚ)
    (next : List (List ℚ) → List ℚ → List (List ℚ))
    (pop0 : List (List ℚ)) (g : ℕ) :
    runPops (fun f vs => evaluate_batch_par f 1 vs) obj next pop0 g =
      runPops (fun f vs => evaluate_batch_par f 4 vs) obj next pop0 g ∧
    genBest (fun f vs => evaluate_batch_par f 1 vs) obj next pop0 g =
      genBest (fun f vs => evaluate_batch_par f 4 vs) obj next pop0 g := by
  have hE : (fun (f : List ℚ → ℚ) vs => evaluate_batch_par f 1 vs) =
      (fun f vs => evaluate_batch_par f 4 vs) := by
    funext f vs
    rw [evaluate_batch_par_eq, evaluate_batch_par_eq]
  rw [hE]
  exact ⟨rfl, rfl⟩

/-! ### Run configuration and fail-fast validation (spec-modelled) -/

/-- Modelled from the spec: the immutable run configuration of the GA
engine (missing from the source tree). -/
structure RunConfig where
  dim : ℕ
  bits : ℕ
  pop_size : ℕ
  max_generations : ℕ
  bounds : List (ℚ × ℚ)

/-- Modelled from the spec: the configuration-error taxonomy. -/
inductive ConfigError where
  | invalidBounds
  | oddPopSize
  | bitsOverflow
  deriving DecidableEq

/-- Modelled from the spec: fail-fast validation (missing from the source
tree) — invalid bounds (`lower < upper` violated), odd population size, or
bit-width overflow (`bits = 0` or `bits > 31`, exceeding the 32-bit signed
integer representation used for decoding) is rejected before the run
starts. -/
def validateConfig (cfg : RunConfig) : Except ConfigError Unit :=
  if ∃ b ∈ cfg.bounds, ¬ b.1 < b.2 then .error .invalidBounds
  else if cfg.pop_size % 2 = 1 then .error .oddPopSize
  else if cfg.bits = 0 ∨ 31 < cfg.bits then .error .bitsOverflow
  else .ok ()

/-- Modelled from the spec: a run validates its configuration first and
only afterwards evaluates candidates (here the decoded all-zero initial
genomes, scored through the sequential pool); the error path performs no
objective evaluation. -/
def runGA (cfg : RunConfig) (f : List ℚ → ℚ) : Except ConfigError (List ℚ) :=
  match validateConfig cfg with
  | .error e => .error e
  | .ok _ => .ok (evaluate_batch_seq f
      (List.replicate cfg.pop_size
        (cfg.bounds.map (fun b => decodeInt b.1 b.2 cfg.bits 0))))

/-- C7: any invalid configuration — `bits > 31` (or `bits = 0`), an odd
population size, or an invalid bounds pair — makes the run fail with a
configuration error before any objective evaluation occurs: the result is
an error, and it does not depend on the objective function at all (no
candidate is ever scored). -/
theorem C7_fail_fast (cfg : RunConfig)
    (h : 31 < cfg.bits ∨ cfg.bits = 0 ∨ cfg.pop_size % 2 = 1 ∨
      ∃ b ∈ cfg.bounds, ¬ b.1 < b.2) :
    (∀ f, ∃ e, runGA cfg f = Except.error e) ∧
    (∀ f g, runGA cfg f = runGA cfg g) := by
  have hval : ∃ e, validateConfig cfg = Except.error e := by
    by_cases h1 : ∃ b ∈ cfg.bounds, ¬ b.1 < b.2
    · exact ⟨.invalidBounds, by rw [validateConfig, if_pos h1]⟩
    · by_cases h2 : cfg.pop_size % 2 = 1
      · exact ⟨.oddPopSize, by rw [validateConfig, if_neg h1, if_pos h2]⟩
      · have h3 : cfg.bits = 0 ∨ 31 < cfg.bits := by
          rcases h with h | h | h | h
          · exact Or.inr h
          · exact Or.inl h
          · exact absurd h h2
          · exact absurd h h1
        exact ⟨.bitsOverflow,
          by rw [validateConfig, if_neg h1, if_neg h2, if_pos h3]⟩
  obtain ⟨e, he⟩ := hval
  refine ⟨fun f => ⟨e, ?_⟩, fun f g => ?_⟩
  · simp [runGA, he]
  · simp [runGA, he]

theorem C7_fail_fast_witness :
    (∃ e, runGA ⟨2, 32, 20, 10, [(-2, 2), (-2, 2)]⟩ (fun _ => 0) =
      Except.error e) ∧
    runGA ⟨2, 32, 20, 10, [(-2, 2), (-2, 2)]⟩ (fun _ => 0) =
      runGA ⟨2, 32, 20, 10, [(-2, 2), (-2, 2)]⟩ (fun _ => 1) := by
  obtain ⟨h1, h2⟩ :=
    C7_fail_fast ⟨2, 32, 20, 10, [(-2, 2), (-2, 2)]⟩ (Or.inl (by norm_num))
  exact ⟨h1 _, h2 _ _⟩

end Hode
